import Mathlib

set_option linter.unusedVariables false

/-!
Shallow embedding of the master/slave scheduling core of
src/plot/plot_srf_perspective.py (an MPI master process that distributes
frame-rendering jobs to spawned slave processes).

The master owns a job list (msg_list, line 332), a dependency counter
(msg_deps, line 334) and a per-slave in-flight table (in_progress, line
458).  Slaves pull work; the master replies with a job entry, the None
sentinel (wait, line 500) or the StopIteration sentinel (stop, line 496).
All line numbers in comments refer to src/plot/plot_srf_perspective.py.
-/

namespace SrfSched

/-- Queue and reply entries of the master dispatch loop.  A Python entry is
one of: the list [load_xyts, meta] (global prep, line 425), the list
[load_xyts_ts, meta, \x7bstart, inc\x7d] (shard prep, line 477), the list
[timeslice, job, meta] (render, lines 430, 443, 450, 487), the None
sentinel (line 500) or the StopIteration sentinel (line 496).  The
unknown constructor stands for any other Python object, exercised only by
the slave's defensive default branch (line 576).  Opaque float payload
fields (azimuth, tilt, scale_t, transparency, sim_time) are omitted; the
partition key (start, inc) and the frame sequence number seq are kept
(seq is None for the single static plot of line 430). -/
inductive Entry where
  | load_xyts : Entry
  | load_xyts_ts (start : Nat) (inc : Nat) : Entry
  | timeslice (seq : Option Nat) : Entry
  | wait : Entry
  | stop : Entry
  | unknown (tag : Nat) : Entry
deriving DecidableEq, Repr

/-- Run parameters fixed before the dispatch loop starts.  w0 is
args.nproc, the number of spawned slaves (maxprocs, line 456); frames_sr
is the number of dynamic animation frames (line 382); nt is the number of
available xyts timeslices (xfile.nt, line 481); frames is the sequence
offset of dynamic frames (line 453).  xpos abstracts the float derivation
sim_time = i * 1.0 / args.framerate; xpos = int(round(sim_time /
xfile.dt)) (lines 483-484) as an opaque map from animation frame index to
timeslice index. -/
structure Cfg where
  w0 : Nat
  frames_sr : Nat
  nt : Nat
  frames : Nat
  xpos : Nat → Nat

/-- Master state mutated by the dispatch loop (lines 461-506): the pending
job list msg_list, the dependency counter msg_deps (a Python int, hence
modelled as an integer), the live-worker count nproc, and the per-slave
in-flight table in_progress (initially [None] * nproc, line 458; the None
sentinel and the empty slot are the same Python value, so slots hold
Entry with Entry.wait for None). -/
structure MState where
  msg_list : List Entry
  msg_deps : Int
  nproc : Nat
  in_progress : List Entry
deriving Repr

/-- Membership test x in ready where ready = range(start, xfile.nt, nproc)
(line 481): start ≤ x, x < nt, and x ≡ start modulo the step nproc. -/
def inReady (nproc start nt x : Nat) : Bool :=
  decide (start ≤ x) && decide (x < nt) && decide ((x - start) % nproc = 0)

/-- Entries appended by the dependency-resolution block (lines 467-491)
when the slave's previous job finished is observed.  load_xyts completion
(lines 471-478) appends one load_xyts_ts job per current worker with
partition key \x7bstart: i, inc: nproc\x7d.  load_xyts_ts completion
(lines 480-491) appends a timeslice job with seq = frames + i for each
frame index i < frames_sr whose derived timeslice index xpos i lies in
ready = range(start, xfile.nt, nproc) — note line 481 uses the current
nproc as the stride, not the inc stored in the finished job.  Any other
value of finished (None, a timeslice job, or anything else) matches no
elif branch and appends nothing. -/
def resolveApp (cfg : Cfg) (m : MState) : Entry → List Entry
  | .load_xyts => (List.range m.nproc).map (fun i => .load_xyts_ts i m.nproc)
  | .load_xyts_ts start _inc =>
      ((List.range cfg.frames_sr).filter
        (fun i => inReady m.nproc start cfg.nt (cfg.xpos i))).map
        (fun i => .timeslice (some (cfg.frames + i)))
  | _ => []

/-- Dependency-counter update of the same block: load_xyts completion does
msg_deps -= 1 then msg_deps += nproc (lines 473, 478); load_xyts_ts
completion does msg_deps -= 1 (line 491); anything else leaves it. -/
def resolveDeps (m : MState) : Entry → Int
  | .load_xyts => m.msg_deps - 1 + m.nproc
  | .load_xyts_ts _ _ => m.msg_deps - 1
  | _ => m.msg_deps

/-- Dependency resolution applied to the finished entry recorded in the
requesting slave's slot (lines 465-491). -/
def resolve (cfg : Cfg) (m : MState) (finished : Entry) : MState :=
  { m with msg_list := m.msg_list ++ resolveApp cfg m finished
           msg_deps := resolveDeps m finished }

/-- Empty-queue sentinel logic (lines 493-500): if msg_list is empty, then
if msg_deps == 0 append StopIteration and decrement nproc (lines 496-497),
else append None (line 500).  nproc - 1 is Nat subtraction; the loop
condition while nproc (line 461) guarantees nproc ≥ 1 whenever this
runs. -/
def afterSentinel (m : MState) : MState :=
  if m.msg_list.isEmpty then
    if m.msg_deps = 0 then
      { m with msg_list := m.msg_list ++ [.stop], nproc := m.nproc - 1 }
    else
      { m with msg_list := m.msg_list ++ [.wait] }
  else m

/-- Previous job of slave j as read from the in-flight table (finished =
in_progress[slave_id], line 465); the initial [None] * nproc slots and a
slot overwritten by a None reply both read back as the wait value. -/
def finished (m : MState) (j : Nat) : Entry := m.in_progress.getD j Entry.wait

/-- One iteration of the master dispatch loop (lines 461-506) serving a
request from slave j: read the slave's previous job from in_progress
(line 465), apply dependency resolution (lines 467-491), apply the
empty-queue sentinel logic (lines 493-500), then dequeue the head entry
(msg = msg_list[0]; del msg_list[0], lines 503-504), send it as the reply
(line 505) and record it — whatever it is, Stop included — in the slave's
slot (line 506).  The headD default is never used: after afterSentinel the
list is nonempty.  Returns the new master state and the reply. -/
def masterStep (cfg : Cfg) (m : MState) (j : Nat) : MState × Entry :=
  let m2 := afterSentinel (resolve cfg m (finished m j))
  ({ m2 with msg_list := m2.msg_list.tail
             in_progress := m2.in_progress.set j (m2.msg_list.headD .wait) },
   m2.msg_list.headD .wait)

/-- Initial job list built before the loop (lines 424-453): with animation
and an xyts file, the load_xyts prep job (line 425) followed by the
stage-1 timeslice jobs with seq = 0, 1, ... (lines 436-452); with
animation but no xyts file, the stage-1 jobs alone; without animation, a
single timeslice job with seq = None (line 430). -/
def initMsgList (animate hasXyts : Bool) (nframes : Nat) : List Entry :=
  if animate then
    (if hasXyts then [Entry.load_xyts] else []) ++
      (List.range nframes).map (fun i => Entry.timeslice (some i))
  else [Entry.timeslice none]

/-- Initial dependency counter (lines 334, 426): 1 when the load_xyts job
was enqueued, else 0. -/
def initDeps (animate hasXyts : Bool) : Int :=
  if animate && hasXyts then 1 else 0

/-- Slave logbook records (lines 560-574): the sleep branch appends the
2-tuple ('sleep', time() - t0) (line 567); the timeslice branch appends
the 3-tuple ('timeslice', task[1], time() - t0) (line 574) which also
carries the job payload, modelled by its seq field.  Wall-clock durations
are abstracted; the closed-system simulation records them as 0. -/
inductive LogEntry where
  | sleepRec (dur : Nat) : LogEntry
  | timesliceRec (seq : Option Nat) (dur : Nat) : LogEntry
deriving DecidableEq, Repr

/-- Length of the Python tuple a logbook record stands for: ('sleep', dt)
has 2 components, ('timeslice', task[1], dt) has 3. -/
def logTupleLen : LogEntry → Nat
  | .sleepRec _ => 2
  | .timesliceRec _ _ => 3

/-- Slave-local state across loop iterations (lines 560-576): the logbook
is the only real state; executed is the trace of handler invocations
(load_xyts, load_xyts_ts and timeslice calls, whose filesystem side
effects are out of scope) and printed counts the defensive error prints
of line 576 — both are observation traces of the slave's effects. -/
structure SlaveState where
  log : List LogEntry
  executed : List Entry
  printed : Nat
deriving DecidableEq, Repr

/-- One slave reaction to a reply (lines 561-576).  StopIteration ends the
request loop (the iter sentinel, line 561): result none.  None sleeps and
logs ('sleep', dt) (lines 565-567).  load_xyts and load_xyts_ts run their
handler and log nothing (lines 568-571).  timeslice runs its handler and
logs ('timeslice', task[1], dt) (lines 572-574).  Anything else prints an
error and continues (lines 575-576). -/
def slaveStep (task : Entry) (st : SlaveState) : Option SlaveState :=
  match task with
  | .stop => none
  | .wait => some { st with log := st.log ++ [.sleepRec 0] }
  | .load_xyts => some { st with executed := st.executed ++ [.load_xyts] }
  | .load_xyts_ts s i =>
      some { st with executed := st.executed ++ [.load_xyts_ts s i] }
  | .timeslice q =>
      some { st with executed := st.executed ++ [.timeslice q]
                     log := st.log ++ [.timesliceRec q 0] }
  | .unknown _ => some { st with printed := st.printed + 1 }

/-- Generator entries: jobs whose completion makes the resolver append new
entries (load_xyts and load_xyts_ts). -/
def isGen : Entry → Bool
  | .load_xyts => true
  | .load_xyts_ts _ _ => true
  | _ => false

/-- Real job entries (neither sentinel nor foreign object). -/
def isJob : Entry → Bool
  | .load_xyts => true
  | .load_xyts_ts _ _ => true
  | .timeslice _ => true
  | _ => false

/-- Indicator of a generator entry. -/
def genInd (e : Entry) : Nat := if isGen e then 1 else 0

/-- Indicator of the stop sentinel. -/
def stopInd (e : Entry) : Nat := if e = Entry.stop then 1 else 0

/-- Sum of f over a list of entries. -/
def sumMap (f : Entry → Nat) (l : List Entry) : Nat := (l.map f).sum

/-- Number of generator entries in a list. -/
def genCountL (l : List Entry) : Nat := sumMap genInd l

/-- Number of stop sentinels in a list (used on the in_progress table to
count slaves already stopped). -/
def stoppedL (l : List Entry) : Nat := sumMap stopInd l

/-- Every entry of the list is a real job. -/
def onlyJobs (l : List Entry) : Prop := ∀ e ∈ l, isJob e = true

/-- Closed-system state: the master state, a round-robin scheduling
pointer modelling one admissible MPI.ANY_SOURCE arrival order of slave
requests (a stopped slave has exited its request loop and sends no more),
the slave states, and the history of (slave, reply) pairs sent. -/
structure Sys where
  m : MState
  ptr : Nat
  slaves : List SlaveState
  history : List (Nat × Entry)
deriving Repr

/-- Index of the next live slave at or cyclically after pos, probing fuel
positions; a slot holding the stop sentinel marks a slave that has exited
its loop.  Returns 0 when fuel runs out (unreachable while any slave is
live and fuel = w0). -/
def nextLive (slots : List Entry) (w0 : Nat) : Nat → Nat → Nat
  | _pos, 0 => 0
  | pos, fuel + 1 =>
      if slots.getD (pos % w0) .wait = .stop then nextLive slots w0 (pos + 1) fuel
      else pos % w0

/-- First cyclic offset from pos (probing fuel positions) at which a slot
holds a generator job in flight; returns fuel exhaustion as 0. -/
def firstGen (slots : List Entry) (w0 : Nat) : Nat → Nat → Nat
  | _pos, 0 => 0
  | pos, fuel + 1 =>
      if isGen (slots.getD (pos % w0) .wait) then 0
      else firstGen slots w0 (pos + 1) fuel + 1

/-- One closed-system step: the next live slave in round-robin order sends
a request, the master serves it with masterStep, and the slave reacts to
the reply with slaveStep (its state is kept unchanged on Stop, since the
logbook survives for the final gather). -/
def sysStep (cfg : Cfg) (s : Sys) : Sys :=
  let j := nextLive s.m.in_progress cfg.w0 s.ptr cfg.w0
  let r := masterStep cfg s.m j
  let sl := s.slaves.getD j ⟨[], [], 0⟩
  { m := r.1
    ptr := j + 1
    slaves := s.slaves.set j ((slaveStep r.2 sl).getD sl)
    history := s.history ++ [(j, r.2)] }

/-- Fuel-bounded run of the master loop while nproc (line 461): stops
stepping exactly when nproc reaches zero. -/
def sysRun (cfg : Cfg) : Nat → Sys → Sys
  | 0, s => s
  | fuel + 1, s => if s.m.nproc = 0 then s else sysRun cfg fuel (sysStep cfg s)

/-- Final collective handshake (line 509 on the master, line 579 on each
slave): the master gathers one logbook per slave before Disconnect. -/
def gatherReports (s : Sys) : List (List LogEntry) := s.slaves.map (fun sl => sl.log)

/-- Flight weight of an entry sitting in a slave slot: an upper bound on
the cost of observing its completion plus the queue weight of everything
its resolution can append.  Used only by the termination measure. -/
def fw (cfg : Cfg) : Entry → Nat
  | .load_xyts => 1 + cfg.w0 * (2 + cfg.frames_sr)
  | .load_xyts_ts _ _ => 1 + cfg.frames_sr
  | _ => 0

/-- Queue weight of an entry: one dispatch plus its flight weight. -/
def qw (cfg : Cfg) (e : Entry) : Nat := 1 + fw cfg e

/-- Primary termination measure of the master state: total queue weight,
plus total flight weight, plus one pending Stop per live worker. -/
def Fm (cfg : Cfg) (m : MState) : Nat :=
  sumMap (qw cfg) m.msg_list + sumMap (fw cfg) m.in_progress + m.nproc

/-- Secondary measure: round-robin distance from the scheduling pointer to
the nearest slave holding a generator job in flight. -/
def Dist (cfg : Cfg) (s : Sys) : Nat := firstGen s.m.in_progress cfg.w0 s.ptr cfg.w0

/-- Lexicographic termination measure of the closed system. -/
def mu (cfg : Cfg) (s : Sys) : Nat := Fm cfg s.m * (cfg.w0 + 1) + Dist cfg s

/-- Number of Stop replies sent to slave k in a reply history. -/
def countStop (k : Nat) (h : List (Nat × Entry)) : Nat :=
  h.countP (fun p => decide (p.1 = k) && decide (p.2 = Entry.stop))

/-- Master-loop invariant: the in_progress table has one slot per spawned
slave; msg_deps equals the number of generator jobs enqueued or in
flight; nproc plus the number of stopped slaves is the spawn count; the
queue holds only real jobs between iterations; and once any slave has
stopped no generator job remains anywhere. -/
def MasterInv (cfg : Cfg) (m : MState) : Prop :=
  m.in_progress.length = cfg.w0 ∧
  m.msg_deps = (genCountL m.msg_list + genCountL m.in_progress : Nat) ∧
  m.nproc + stoppedL m.in_progress = cfg.w0 ∧
  onlyJobs m.msg_list ∧
  (0 < stoppedL m.in_progress → genCountL m.msg_list + genCountL m.in_progress = 0)

/-- History invariant: slave k has been sent exactly one Stop when its
slot records the stop sentinel, and none before. -/
def HistOK (cfg : Cfg) (m : MState) (h : List (Nat × Entry)) : Prop :=
  ∀ k, k < cfg.w0 →
    countStop k h = (if m.in_progress.getD k .wait = .stop then 1 else 0)

/-- Closed-system invariant. -/
def SysInv (cfg : Cfg) (s : Sys) : Prop :=
  MasterInv cfg s.m ∧ s.slaves.length = cfg.w0 ∧ HistOK cfg s.m s.history

instance decSysInv (cfg : Cfg) (s : Sys) : Decidable (SysInv cfg s) := by
  unfold SysInv MasterInv HistOK onlyJobs
  infer_instance

/-- Master state and empty history as set up by the source before the
loop: one of the initial job lists of lines 424-453, the matching
dependency counter, a full complement of live slaves and an untouched
in_progress table. -/
def MInitH (cfg : Cfg) (p : MState × List (Nat × Entry)) : Prop :=
  (∃ animate hasXyts nframes,
      p.1.msg_list = initMsgList animate hasXyts nframes ∧
      p.1.msg_deps = initDeps animate hasXyts) ∧
  p.1.nproc = cfg.w0 ∧
  p.1.in_progress = List.replicate cfg.w0 Entry.wait ∧
  p.2 = []

/-- Closed-system initial state: master initial state, scheduling pointer
0, fresh slaves, empty history. -/
def SysInit (cfg : Cfg) (s : Sys) : Prop :=
  MInitH cfg (s.m, s.history) ∧ s.ptr = 0 ∧
  s.slaves = List.replicate cfg.w0 (⟨[], [], 0⟩ : SlaveState)

/-- Traces of the master loop under an arbitrary admissible schedule: any
slave that has not yet received Stop may be the next requester.  The
second component accumulates the (slave, reply) history. -/
inductive ReachesH (cfg : Cfg) :
    MState × List (Nat × Entry) → MState × List (Nat × Entry) → Prop where
  | refl (p : MState × List (Nat × Entry)) : ReachesH cfg p p
  | step (p q : MState × List (Nat × Entry)) (j : Nat)
      (hq : ReachesH cfg p q) (hj : j < cfg.w0)
      (hlive : q.1.in_progress.getD j Entry.wait ≠ Entry.stop)
      (hnp : q.1.nproc ≠ 0) :
      ReachesH cfg p
        ((masterStep cfg q.1 j).1, q.2 ++ [(j, (masterStep cfg q.1 j).2)])

/-- Concrete run parameters for closed instance checks: one slave, no
dynamic frames. -/
def cfgA : Cfg := ⟨1, 0, 0, 0, fun _ => 0⟩

/-- Concrete run parameters: two slaves, no dynamic frames. -/
def cfgB : Cfg := ⟨2, 0, 0, 0, fun _ => 0⟩

/-- Concrete run parameters: two slaves, three dynamic frames, two
available timeslices, seq offset 10, identity frame-to-timeslice map. -/
def cfgC : Cfg := ⟨2, 3, 2, 10, fun i => i⟩

/-- Scenario A parameters: three slaves, no generator jobs. -/
def cfg9 : Cfg := ⟨3, 0, 0, 0, fun _ => 0⟩

/-- Master state with empty queue, zero dependencies, one live slave. -/
def mA : MState := ⟨[], 0, 1, [Entry.wait]⟩

/-- Master state with empty queue, five outstanding dependencies (only as
an arithmetic instance), two live slaves. -/
def mB : MState := ⟨[], 5, 2, []⟩

/-- Master state as the source initialises it with animation, an xyts
file and two stage-1 frames, for two slaves. -/
def m4 : MState :=
  ⟨initMsgList true true 2, initDeps true true, 2, List.replicate 2 Entry.wait⟩

/-- Master state as the source initialises it with animation, no xyts
file and two stage-1 frames, for one slave. -/
def m10 : MState :=
  ⟨initMsgList true false 2, initDeps true false, 1, List.replicate 1 Entry.wait⟩

/-- Closed system with one fresh slave and an empty queue. -/
def sA : Sys := ⟨⟨[], 0, 1, [Entry.wait]⟩, 0, [⟨[], [], 0⟩], []⟩

/-- Closed system already past termination: no live slave. -/
def sHalted : Sys := ⟨⟨[], 0, 0, []⟩, 0, [], []⟩

/-- Closed system starting from the non-animated initial state with one
slave. -/
def s5 : Sys :=
  ⟨⟨initMsgList false false 0, initDeps false false, 1,
    List.replicate 1 Entry.wait⟩, 0, List.replicate 1 ⟨[], [], 0⟩, []⟩

/-- Closed system with one slave whose logbook already holds a sleep
record, used to exercise the final gather. -/
def s7 : Sys := ⟨⟨[], 0, 1, [Entry.wait]⟩, 0, [⟨[LogEntry.sleepRec 0], [], 0⟩], []⟩

/-- Scenario A initial state: ten pre-enqueued render jobs with seq
0..9, zero dependencies, three fresh slaves. -/
def s9 : Sys :=
  ⟨⟨(List.range 10).map (fun i => Entry.timeslice (some i)), 0, 3,
    List.replicate 3 Entry.wait⟩, 0, List.replicate 3 ⟨[], [], 0⟩, []⟩

theorem sumMap_nil (f : Entry → Nat) : sumMap f [] = 0 := rfl

theorem sumMap_cons (f : Entry → Nat) (a : Entry) (l : List Entry) :
    sumMap f (a :: l) = f a + sumMap f l := by
  simp [sumMap]

theorem sumMap_append (f : Entry → Nat) (l l' : List Entry) :
    sumMap f (l ++ l') = sumMap f l + sumMap f l' := by
  simp [sumMap]

theorem getD_set_self {l : List Entry} {j : Nat} (e d : Entry)
    (h : j < l.length) : (l.set j e).getD j d = e := by
  induction l generalizing j with
  | nil => simp at h
  | cons a t ih =>
      cases j with
      | zero => simp [List.set]
      | succ k =>
          simp only [List.set, List.getD, List.get?]
          exact ih (by simpa using h)

theorem getD_set_ne {l : List Entry} {j k : Nat} (e d : Entry)
    (h : j ≠ k) : (l.set j e).getD k d = l.getD k d := by
  induction l generalizing j k with
  | nil => simp [List.set]
  | cons a t ih =>
      cases j with
      | zero =>
          cases k with
          | zero => exact absurd rfl h
          | succ k2 => simp [List.set, List.getD]
      | succ j2 =>
          cases k with
          | zero => simp [List.set, List.getD]
          | succ k2 =>
              simp only [List.set, List.getD, List.get?]
              exact ih (fun hh => h (by rw [hh]))

theorem sumMap_set (f : Entry → Nat) {l : List Entry} {j : Nat} (e d : Entry)
    (h : j < l.length) :
    sumMap f (l.set j e) + f (l.getD j d) = sumMap f l + f e := by
  induction l generalizing j with
  | nil => simp at h
  | cons a t ih =>
      cases j with
      | zero => simp [List.set, sumMap_cons, List.getD]; omega
      | succ k =>
          have hk : k < t.length := by simpa using h
          have := ih hk
          simp only [List.set, sumMap_cons, List.getD, List.get?]
          simp only [List.getD] at this
          omega

theorem sumMap_replicate (f : Entry → Nat) (n : Nat) (e : Entry) :
    sumMap f (List.replicate n e) = n * f e := by
  induction n with
  | zero => simp [sumMap_nil]
  | succ k ih => simp [List.replicate, sumMap_cons, ih, Nat.succ_mul]; omega

theorem sumMap_const_of_mem (f : Entry → Nat) (c : Nat) {l : List Entry}
    (h : ∀ e ∈ l, f e = c) : sumMap f l = c * l.length := by
  induction l with
  | nil => simp [sumMap_nil]
  | cons a t ih =>
      have ha := h a (by simp)
      have ht := ih (fun e he => h e (by simp [he]))
      simp [sumMap_cons, ha, ht, Nat.mul_succ]; omega

theorem sumMap_le_length (f : Entry → Nat) (hf : ∀ e, f e ≤ 1)
    (l : List Entry) : sumMap f l ≤ l.length := by
  induction l with
  | nil => simp [sumMap_nil]
  | cons a t ih =>
      have := hf a
      simp [sumMap_cons]; omega

theorem sumMap_eq_zero_getD (f : Entry → Nat) {l : List Entry}
    (h0 : sumMap f l = 0) {k : Nat} (hk : k < l.length) (d : Entry) :
    f (l.getD k d) = 0 := by
  induction l generalizing k with
  | nil => simp at hk
  | cons a t ih =>
      rw [sumMap_cons] at h0
      cases k with
      | zero => simp [List.getD]; omega
      | succ k2 =>
          simp only [List.getD, List.get?]
          exact ih (by omega) (by simpa using hk)

theorem exists_of_sumMap_pos (f : Entry → Nat) {l : List Entry} (d : Entry)
    (h : 0 < sumMap f l) : ∃ k, k < l.length ∧ 0 < f (l.getD k d) := by
  induction l with
  | nil => simp [sumMap_nil] at h
  | cons a t ih =>
      rw [sumMap_cons] at h
      by_cases ha : 0 < f a
      · exact ⟨0, by simp, by simpa [List.getD] using ha⟩
      · have ht : 0 < sumMap f t := by omega
        obtain ⟨k, hk, hfk⟩ := ih ht
        exact ⟨k + 1, by simpa using hk, by simpa [List.getD] using hfk⟩

theorem all_of_sumMap_eq_length (f : Entry → Nat) (hf : ∀ e, f e ≤ 1)
    {l : List Entry} (h : sumMap f l = l.length) {k : Nat}
    (hk : k < l.length) (d : Entry) : f (l.getD k d) = 1 := by
  induction l generalizing k with
  | nil => simp at hk
  | cons a t ih =>
      rw [sumMap_cons] at h
      have hle : sumMap f t ≤ t.length := sumMap_le_length f hf t
      have hfa : f a ≤ 1 := hf a
      simp only [List.length_cons] at h
      cases k with
      | zero => simp [List.getD]; omega
      | succ k2 =>
          simp only [List.getD, List.get?]
          exact ih (by omega) (by simpa using hk)

theorem onlyJobs_nil : onlyJobs [] := by
  intro e he; simp at he

theorem onlyJobs_append {l l' : List Entry} (h : onlyJobs l) (h' : onlyJobs l') :
    onlyJobs (l ++ l') := by
  intro e he
  rcases List.mem_append.mp he with h1 | h2
  · exact h e h1
  · exact h' e h2

theorem onlyJobs_tail {l : List Entry} (h : onlyJobs l) : onlyJobs l.tail := by
  intro e he
  exact h e (List.mem_of_mem_tail he)

theorem mod_shift (ptr d w0 : Nat) : (ptr % w0 + d) % w0 = (ptr + d) % w0 :=
  Nat.ModEq.add_right d (Nat.mod_modEq ptr w0)

theorem exists_offset {w0 i : Nat} (ptr : Nat) (hw : 0 < w0) (hi : i < w0) :
    ∃ mm, mm < w0 ∧ (ptr + mm) % w0 = i := by
  refine ⟨(i + w0 - ptr % w0) % w0, Nat.mod_lt _ hw, ?_⟩
  have hr : ptr % w0 < w0 := Nat.mod_lt _ hw
  have h1 : ptr % w0 + (i + w0 - ptr % w0) = i + w0 := by omega
  have h2 : (ptr + (i + w0 - ptr % w0) % w0) % w0
      = (ptr + (i + w0 - ptr % w0)) % w0 :=
    Nat.ModEq.add_left ptr (Nat.mod_modEq _ w0)
  calc (ptr + (i + w0 - ptr % w0) % w0) % w0
      = (ptr + (i + w0 - ptr % w0)) % w0 := h2
    _ = (ptr % w0 + (i + w0 - ptr % w0)) % w0 := (mod_shift ptr _ w0).symm
    _ = (i + w0) % w0 := by rw [h1]
    _ = i % w0 := Nat.add_mod_right i w0
    _ = i := Nat.mod_eq_of_lt hi

theorem add_mod_ne {d w0 : Nat} (ptr : Nat) (hd : 0 < d) (hdw : d < w0) :
    (ptr + d) % w0 ≠ ptr % w0 := by
  intro h
  have h0 : (ptr + d) % w0 = (ptr + 0) % w0 := by simpa using h
  have hc : d ≡ 0 [MOD w0] := Nat.ModEq.add_left_cancel' ptr h0
  have : d % w0 = 0 % w0 := hc
  rw [Nat.mod_eq_of_lt hdw, Nat.zero_mod] at this
  omega

theorem firstGen_le_fuel (slots : List Entry) (w0 : Nat) :
    ∀ fuel pos, firstGen slots w0 pos fuel ≤ fuel := by
  intro fuel
  induction fuel with
  | zero => intro pos; simp [firstGen]
  | succ k ih =>
      intro pos
      by_cases hg : isGen (slots.getD (pos % w0) .wait) = true
      · simp only [firstGen, if_pos hg]; omega
      · simp only [firstGen, if_neg hg]
        have := ih (pos + 1)
        omega

theorem firstGen_le (slots : List Entry) (w0 : Nat) :
    ∀ fuel pos mm, mm < fuel →
      isGen (slots.getD ((pos + mm) % w0) .wait) = true →
      firstGen slots w0 pos fuel ≤ mm := by
  intro fuel
  induction fuel with
  | zero => intro pos mm h; omega
  | succ k ih =>
      intro pos mm hmm hgen
      by_cases hg : isGen (slots.getD (pos % w0) .wait) = true
      · simp only [firstGen, if_pos hg]; omega
      · simp only [firstGen, if_neg hg]
        cases mm with
        | zero => rw [Nat.add_zero] at hgen; exact absurd hgen hg
        | succ m2 =>
            have harg : pos + 1 + m2 = pos + (m2 + 1) := by omega
            have := ih (pos + 1) m2 (by omega) (by rw [harg]; exact hgen)
            omega

theorem firstGen_found (slots : List Entry) (w0 : Nat) :
    ∀ fuel pos, firstGen slots w0 pos fuel < fuel →
      isGen (slots.getD ((pos + firstGen slots w0 pos fuel) % w0) .wait) = true := by
  intro fuel
  induction fuel with
  | zero => intro pos h; omega
  | succ k ih =>
      intro pos hlt
      by_cases hg : isGen (slots.getD (pos % w0) .wait) = true
      · simp only [firstGen, if_pos hg, Nat.add_zero]; exact hg
      · simp only [firstGen, if_neg hg] at hlt ⊢
        have h2 : firstGen slots w0 (pos + 1) k < k := by omega
        have := ih (pos + 1) h2
        have harg : pos + 1 + firstGen slots w0 (pos + 1) k
            = pos + (firstGen slots w0 (pos + 1) k + 1) := by omega
        rw [harg] at this
        exact this

theorem nextLive_spec (slots : List Entry) (w0 : Nat) (hw : 0 < w0) :
    ∀ fuel pos,
      (∃ mm, mm < fuel ∧ slots.getD ((pos + mm) % w0) .wait ≠ .stop) →
      slots.getD (nextLive slots w0 pos fuel) .wait ≠ .stop ∧
        nextLive slots w0 pos fuel < w0 := by
  intro fuel
  induction fuel with
  | zero => intro pos ⟨mm, hmm, _⟩; omega
  | succ k ih =>
      intro pos ⟨mm, hmm, hlive⟩
      by_cases hs : slots.getD (pos % w0) .wait = .stop
      · simp only [nextLive, if_pos hs]
        cases mm with
        | zero => rw [Nat.add_zero] at hlive; exact absurd hs hlive
        | succ m2 =>
            have harg : pos + 1 + m2 = pos + (m2 + 1) := by omega
            exact ih (pos + 1) ⟨m2, by omega, by rw [harg]; exact hlive⟩
      · simp only [nextLive, if_neg hs]
        exact ⟨hs, Nat.mod_lt _ hw⟩

theorem nextLive_first_live (slots : List Entry) (w0 : Nat) (pos fuel : Nat)
    (h : slots.getD (pos % w0) .wait ≠ .stop) :
    nextLive slots w0 pos (fuel + 1) = pos % w0 := by
  simp only [nextLive, if_neg h]

theorem getD_le_sumMap (f : Entry → Nat) {l : List Entry} {k : Nat}
    (hk : k < l.length) (d : Entry) : f (l.getD k d) ≤ sumMap f l := by
  induction l generalizing k with
  | nil => simp at hk
  | cons a t ih =>
      rw [sumMap_cons]
      cases k with
      | zero => simp [List.getD]
      | succ k2 =>
          simp only [List.getD, List.get?]
          have := ih (k := k2) (by simpa using hk)
          simp only [List.getD] at this
          omega

theorem exists_zero_of_sumMap_lt (f : Entry → Nat) (hf : ∀ e, f e ≤ 1)
    {l : List Entry} (h : sumMap f l < l.length) (d : Entry) :
    ∃ k, k < l.length ∧ f (l.getD k d) = 0 := by
  induction l with
  | nil => simp at h
  | cons a t ih =>
      rw [sumMap_cons] at h
      by_cases ha : f a = 0
      · exact ⟨0, by simp, by simpa [List.getD] using ha⟩
      · have ha1 : f a = 1 := by have := hf a; omega
        have ht : sumMap f t < t.length := by
          simp only [List.length_cons] at h; omega
        obtain ⟨k, hk, hfk⟩ := ih ht
        exact ⟨k + 1, by simpa using hk, by simpa [List.getD] using hfk⟩

theorem getD_replicate (n k : Nat) (e d : Entry) (hk : k < n) :
    (List.replicate n e).getD k d = e := by
  induction n generalizing k with
  | zero => omega
  | succ n2 ih =>
      cases k with
      | zero => simp [List.replicate, List.getD]
      | succ k2 =>
          simp only [List.replicate, List.getD, List.get?]
          exact ih k2 (by omega)

theorem stopInd_of_isJob {e : Entry} (h : isJob e = true) : stopInd e = 0 := by
  cases e <;> simp_all [isJob, stopInd]

theorem stopInd_of_ne_stop {e : Entry} (h : e ≠ Entry.stop) : stopInd e = 0 := by
  simp [stopInd, h]

theorem genInd_eq_zero {e : Entry} (h : isGen e = false) : genInd e = 0 := by
  simp [genInd, h]

theorem genInd_eq_one {e : Entry} (h : isGen e = true) : genInd e = 1 := by
  simp [genInd, h]

theorem isGen_false_of_genInd {e : Entry} (h : genInd e = 0) : isGen e = false := by
  by_cases hg : isGen e = true
  · simp [genInd, hg] at h
  · simpa using hg

theorem resolveApp_nonGen (cfg : Cfg) (m : MState) {e : Entry}
    (h : isGen e = false) : resolveApp cfg m e = [] := by
  cases e <;> simp_all [isGen, resolveApp]

theorem resolveDeps_nonGen (m : MState) {e : Entry}
    (h : isGen e = false) : resolveDeps m e = m.msg_deps := by
  cases e <;> simp_all [isGen, resolveDeps]

theorem onlyJobs_resolveApp (cfg : Cfg) (m : MState) (e : Entry) :
    onlyJobs (resolveApp cfg m e) := by
  cases e with
  | load_xyts =>
      intro x hx
      simp only [resolveApp, List.mem_map] at hx
      obtain ⟨i, _, hix⟩ := hx
      simp [← hix, isJob]
  | load_xyts_ts st ic =>
      intro x hx
      simp only [resolveApp, List.mem_map] at hx
      obtain ⟨i, _, hix⟩ := hx
      simp [← hix, isJob]
  | timeslice q => intro x hx; simp [resolveApp] at hx
  | wait => intro x hx; simp [resolveApp] at hx
  | stop => intro x hx; simp [resolveApp] at hx
  | unknown t => intro x hx; simp [resolveApp] at hx

theorem genCountL_resolveApp_lx (cfg : Cfg) (m : MState) :
    genCountL (resolveApp cfg m Entry.load_xyts) = m.nproc := by
  have hmem : ∀ e ∈ resolveApp cfg m Entry.load_xyts, genInd e = 1 := by
    intro x hx
    simp only [resolveApp, List.mem_map] at hx
    obtain ⟨i, _, hix⟩ := hx
    simp [← hix, genInd, isGen]
  rw [genCountL, sumMap_const_of_mem genInd 1 hmem]
  simp [resolveApp]

theorem genCountL_resolveApp_lxts (cfg : Cfg) (m : MState) (st ic : Nat) :
    genCountL (resolveApp cfg m (Entry.load_xyts_ts st ic)) = 0 := by
  have hmem : ∀ e ∈ resolveApp cfg m (Entry.load_xyts_ts st ic), genInd e = 0 := by
    intro x hx
    simp only [resolveApp, List.mem_map] at hx
    obtain ⟨i, _, hix⟩ := hx
    simp [← hix, genInd, isGen]
  rw [genCountL, sumMap_const_of_mem genInd 0 hmem]
  omega

theorem sumQ_resolveApp_lx (cfg : Cfg) (m : MState) :
    sumMap (qw cfg) (resolveApp cfg m Entry.load_xyts)
      = m.nproc * (2 + cfg.frames_sr) := by
  have hmem : ∀ e ∈ resolveApp cfg m Entry.load_xyts,
      qw cfg e = 2 + cfg.frames_sr := by
    intro x hx
    simp only [resolveApp, List.mem_map] at hx
    obtain ⟨i, _, hix⟩ := hx
    simp [← hix, qw, fw]
    omega
  rw [sumMap_const_of_mem (qw cfg) (2 + cfg.frames_sr) hmem]
  have : (resolveApp cfg m Entry.load_xyts).length = m.nproc := by
    simp [resolveApp]
  rw [this, Nat.mul_comm]

theorem sumQ_resolveApp_lxts (cfg : Cfg) (m : MState) (st ic : Nat) :
    sumMap (qw cfg) (resolveApp cfg m (Entry.load_xyts_ts st ic))
      ≤ cfg.frames_sr := by
  have hmem : ∀ e ∈ resolveApp cfg m (Entry.load_xyts_ts st ic), qw cfg e = 1 := by
    intro x hx
    simp only [resolveApp, List.mem_map] at hx
    obtain ⟨i, _, hix⟩ := hx
    simp [← hix, qw, fw]
  rw [sumMap_const_of_mem (qw cfg) 1 hmem]
  have : (resolveApp cfg m (Entry.load_xyts_ts st ic)).length ≤ cfg.frames_sr := by
    simp only [resolveApp, List.length_map]
    calc ((List.range cfg.frames_sr).filter
            (fun i => inReady m.nproc st cfg.nt (cfg.xpos i))).length
        ≤ (List.range cfg.frames_sr).length := List.length_filter_le _ _
      _ = cfg.frames_sr := List.length_range _
  omega

theorem masterStep_cases (cfg : Cfg) (m : MState) (j : Nat) :
    (∃ h t, m.msg_list ++ resolveApp cfg m (finished m j) = h :: t ∧
      masterStep cfg m j =
        (⟨t, resolveDeps m (finished m j), m.nproc, m.in_progress.set j h⟩, h)) ∨
    (m.msg_list = [] ∧ resolveApp cfg m (finished m j) = [] ∧
      resolveDeps m (finished m j) = 0 ∧
      masterStep cfg m j =
        (⟨[], 0, m.nproc - 1, m.in_progress.set j Entry.stop⟩, Entry.stop)) ∨
    (m.msg_list = [] ∧ resolveApp cfg m (finished m j) = [] ∧
      resolveDeps m (finished m j) ≠ 0 ∧
      masterStep cfg m j =
        (⟨[], resolveDeps m (finished m j), m.nproc,
          m.in_progress.set j Entry.wait⟩, Entry.wait)) := by
  rcases hl : m.msg_list ++ resolveApp cfg m (finished m j) with _ | ⟨h, t⟩
  · have hml : m.msg_list = [] := (List.append_eq_nil.mp hl).1
    have hA : resolveApp cfg m (finished m j) = [] := (List.append_eq_nil.mp hl).2
    by_cases hd : resolveDeps m (finished m j) = 0
    · right; left
      refine ⟨hml, hA, hd, ?_⟩
      simp only [masterStep, resolve, afterSentinel, hl, hd]
      simp
    · right; right
      refine ⟨hml, hA, hd, ?_⟩
      simp only [masterStep, resolve, afterSentinel, hl]
      simp [hd]
  · left
    refine ⟨h, t, rfl, ?_⟩
    simp only [masterStep, resolve, afterSentinel, hl]
    simp

theorem resolveDeps_eq (cfg : Cfg) (m : MState) (e : Entry) :
    resolveDeps m e = m.msg_deps - genInd e + genCountL (resolveApp cfg m e) := by
  cases e with
  | load_xyts =>
      rw [resolveDeps, genCountL_resolveApp_lx]
      simp [genInd, isGen]
  | load_xyts_ts st ic =>
      rw [resolveDeps, genCountL_resolveApp_lxts]
      simp [genInd, isGen]
  | timeslice q => simp [resolveDeps, resolveApp, genInd, isGen, genCountL, sumMap_nil]
  | wait => simp [resolveDeps, resolveApp, genInd, isGen, genCountL, sumMap_nil]
  | stop => simp [resolveDeps, resolveApp, genInd, isGen, genCountL, sumMap_nil]
  | unknown t => simp [resolveDeps, resolveApp, genInd, isGen, genCountL, sumMap_nil]

theorem masterStep_records (cfg : Cfg) (m : MState) (j : Nat)
    (hjl : j < m.in_progress.length) :
    (masterStep cfg m j).1.in_progress.getD j Entry.wait = (masterStep cfg m j).2 := by
  rcases masterStep_cases cfg m j with ⟨h, t, hl, hstep⟩ | ⟨h1, h2, h3, hstep⟩ |
      ⟨h1, h2, h3, hstep⟩ <;>
    rw [hstep] <;> exact getD_set_self _ _ hjl

theorem masterStep_slot_ne (cfg : Cfg) (m : MState) (j k : Nat) (hk : j ≠ k) :
    (masterStep cfg m j).1.in_progress.getD k Entry.wait
      = m.in_progress.getD k Entry.wait := by
  rcases masterStep_cases cfg m j with ⟨h, t, hl, hstep⟩ | ⟨h1, h2, h3, hstep⟩ |
      ⟨h1, h2, h3, hstep⟩ <;>
    rw [hstep] <;> exact getD_set_ne _ _ hk

theorem masterInv_step (cfg : Cfg) (m : MState) (j : Nat)
    (hInv : MasterInv cfg m) (hj : j < cfg.w0)
    (hlive : finished m j ≠ Entry.stop) (hnp : m.nproc ≠ 0) :
    MasterInv cfg (masterStep cfg m j).1 := by
  obtain ⟨hlen, hdeps, hnpc, hjobs, hstop0⟩ := hInv
  have hjl : j < m.in_progress.length := hlen ▸ hj
  simp only [genCountL, stoppedL] at hdeps hnpc hstop0
  have hDA := resolveDeps_eq cfg m (finished m j)
  simp only [genCountL] at hDA
  have hfinle : genInd (finished m j) ≤ sumMap genInd m.in_progress :=
    getD_le_sumMap genInd hjl Entry.wait
  have hfins : stopInd (finished m j) = 0 := stopInd_of_ne_stop hlive
  have hGstop : genInd Entry.stop = 0 := rfl
  have hSstop : stopInd Entry.stop = 1 := rfl
  have hGwait : genInd Entry.wait = 0 := rfl
  have hSwait : stopInd Entry.wait = 0 := rfl
  have hGnil : sumMap genInd ([] : List Entry) = 0 := rfl
  rcases masterStep_cases cfg m j with ⟨h, t, hl, hstep⟩ | ⟨hml, hA, hd, hstep⟩ |
      ⟨hml, hA, hd, hstep⟩
  · -- nonempty queue after resolution: the head job h is dispatched
    have hq : sumMap genInd m.msg_list
        + sumMap genInd (resolveApp cfg m (finished m j))
        = genInd h + sumMap genInd t := by
      rw [← sumMap_append, hl, sumMap_cons]
    have hs : sumMap genInd (m.in_progress.set j h) + genInd (finished m j)
        = sumMap genInd m.in_progress + genInd h :=
      sumMap_set genInd (l := m.in_progress) (e := h) Entry.wait hjl
    have hss : sumMap stopInd (m.in_progress.set j h) + stopInd (finished m j)
        = sumMap stopInd m.in_progress + stopInd h :=
      sumMap_set stopInd (l := m.in_progress) (e := h) Entry.wait hjl
    have hjob : isJob h = true := by
      have hmem : h ∈ m.msg_list ++ resolveApp cfg m (finished m j) := by
        rw [hl]; exact List.mem_cons_self h t
      exact onlyJobs_append hjobs (onlyJobs_resolveApp cfg m _) h hmem
    have hsh : stopInd h = 0 := stopInd_of_isJob hjob
    rw [hstep]
    refine ⟨by simpa using hlen, ?_, ?_, ?_, ?_⟩
    · show resolveDeps m (finished m j)
        = ((sumMap genInd t + sumMap genInd (m.in_progress.set j h) : Nat) : Int)
      omega
    · show m.nproc + sumMap stopInd (m.in_progress.set j h) = cfg.w0
      omega
    · show onlyJobs t
      have hht : onlyJobs (h :: t) :=
        hl ▸ onlyJobs_append hjobs (onlyJobs_resolveApp cfg m _)
      intro e he
      exact hht e (List.mem_cons_of_mem h he)
    · show 0 < sumMap stopInd (m.in_progress.set j h) →
        sumMap genInd t + sumMap genInd (m.in_progress.set j h) = 0
      intro hpos
      have hz := hstop0 (by omega)
      have hfz : genInd (finished m j) = 0 := by omega
      have hAz : sumMap genInd (resolveApp cfg m (finished m j)) = 0 := by
        rw [resolveApp_nonGen cfg m (isGen_false_of_genInd hfz)]
        rfl
      omega
  · -- queue empty after resolution, all dependencies resolved: emit Stop
    have hs : sumMap genInd (m.in_progress.set j Entry.stop) + genInd (finished m j)
        = sumMap genInd m.in_progress + genInd Entry.stop :=
      sumMap_set genInd (l := m.in_progress) (e := Entry.stop) Entry.wait hjl
    have hss : sumMap stopInd (m.in_progress.set j Entry.stop) + stopInd (finished m j)
        = sumMap stopInd m.in_progress + stopInd Entry.stop :=
      sumMap_set stopInd (l := m.in_progress) (e := Entry.stop) Entry.wait hjl
    have hqz : sumMap genInd m.msg_list = 0 := by rw [hml]; rfl
    have hAz : sumMap genInd (resolveApp cfg m (finished m j)) = 0 := by
      rw [hA]; rfl
    rw [hstep]
    refine ⟨by simpa using hlen, ?_, ?_, onlyJobs_nil, ?_⟩
    · show (0 : Int) = ((sumMap genInd ([] : List Entry)
        + sumMap genInd (m.in_progress.set j Entry.stop) : Nat) : Int)
      omega
    · show (m.nproc - 1) + sumMap stopInd (m.in_progress.set j Entry.stop) = cfg.w0
      omega
    · intro hpos
      show sumMap genInd ([] : List Entry)
        + sumMap genInd (m.in_progress.set j Entry.stop) = 0
      omega
  · -- queue empty after resolution, dependencies outstanding: emit Wait
    have hs : sumMap genInd (m.in_progress.set j Entry.wait) + genInd (finished m j)
        = sumMap genInd m.in_progress + genInd Entry.wait :=
      sumMap_set genInd (l := m.in_progress) (e := Entry.wait) Entry.wait hjl
    have hss : sumMap stopInd (m.in_progress.set j Entry.wait) + stopInd (finished m j)
        = sumMap stopInd m.in_progress + stopInd Entry.wait :=
      sumMap_set stopInd (l := m.in_progress) (e := Entry.wait) Entry.wait hjl
    have hqz : sumMap genInd m.msg_list = 0 := by rw [hml]; rfl
    have hAz : sumMap genInd (resolveApp cfg m (finished m j)) = 0 := by
      rw [hA]; rfl
    rw [hstep]
    refine ⟨by simpa using hlen, ?_, ?_, onlyJobs_nil, ?_⟩
    · show resolveDeps m (finished m j) = ((sumMap genInd ([] : List Entry)
        + sumMap genInd (m.in_progress.set j Entry.wait) : Nat) : Int)
      omega
    · show m.nproc + sumMap stopInd (m.in_progress.set j Entry.wait) = cfg.w0
      omega
    · show 0 < sumMap stopInd (m.in_progress.set j Entry.wait) →
        sumMap genInd ([] : List Entry)
          + sumMap genInd (m.in_progress.set j Entry.wait) = 0
      intro hpos
      have hz := hstop0 (by omega)
      omega

theorem countStop_append (k : Nat) (h1 h2 : List (Nat × Entry)) :
    countStop k (h1 ++ h2) = countStop k h1 + countStop k h2 := by
  simp [countStop, List.countP_append]

theorem countStop_single (k j : Nat) (r : Entry) :
    countStop k [(j, r)] = if j = k ∧ r = Entry.stop then 1 else 0 := by
  by_cases h1 : j = k <;> by_cases h2 : r = Entry.stop <;>
    simp [countStop, List.countP_cons, h1, h2]

theorem histOK_step (cfg : Cfg) (m : MState) (hist : List (Nat × Entry)) (j : Nat)
    (hMI : MasterInv cfg m) (hH : HistOK cfg m hist) (hj : j < cfg.w0)
    (hlive : finished m j ≠ Entry.stop) :
    HistOK cfg (masterStep cfg m j).1
      (hist ++ [(j, (masterStep cfg m j).2)]) := by
  intro k hk
  rw [countStop_append, countStop_single]
  by_cases hkj : k = j
  · subst hkj
    have hjl : k < m.in_progress.length := hMI.1 ▸ hk
    have hrec := masterStep_records cfg m k hjl
    have hold := hH k hk
    have hlive2 : m.in_progress.getD k Entry.wait ≠ Entry.stop := hlive
    rw [if_neg hlive2] at hold
    rw [hold, hrec]
    by_cases hr : (masterStep cfg m k).2 = Entry.stop <;> simp [hr]
  · have hne := masterStep_slot_ne cfg m j k (fun hh => hkj hh.symm)
    have hold := hH k hk
    have hjk : ¬(j = k ∧ (masterStep cfg m j).2 = Entry.stop) :=
      fun hh => hkj hh.1.symm
    rw [if_neg hjk, hne, hold]
    exact Nat.add_zero _

theorem stopInd_le_one (e : Entry) : stopInd e ≤ 1 := by
  cases e <;> simp [stopInd]

theorem isGen_true_of_genInd_pos {e : Entry} (h : 0 < genInd e) : isGen e = true := by
  by_cases hg : isGen e = true
  · exact hg
  · rw [genInd, if_neg hg] at h; omega

theorem isGen_false_of_fw (cfg : Cfg) {e : Entry} (h : fw cfg e = 0) :
    isGen e = false := by
  cases e with
  | load_xyts => rw [fw] at h; omega
  | load_xyts_ts st ic => rw [fw] at h; omega
  | timeslice q => rfl
  | wait => rfl
  | stop => rfl
  | unknown t => rfl

theorem nextLive_of_live (slots : List Entry) (w0 pos : Nat) (hw : 0 < w0)
    (h : slots.getD (pos % w0) Entry.wait ≠ Entry.stop) :
    nextLive slots w0 pos w0 = pos % w0 := by
  rcases Nat.exists_eq_succ_of_ne_zero (Nat.pos_iff_ne_zero.mp hw) with ⟨n, hn⟩
  rw [hn] at h ⊢
  exact nextLive_first_live slots (n + 1) pos n h

theorem Fm_step (cfg : Cfg) (m : MState) (j : Nat)
    (hInv : MasterInv cfg m) (hj : j < cfg.w0)
    (hlive : finished m j ≠ Entry.stop) (hnp : m.nproc ≠ 0) :
    Fm cfg (masterStep cfg m j).1 < Fm cfg m ∨
    (Fm cfg (masterStep cfg m j).1 = Fm cfg m ∧
      (masterStep cfg m j).1.in_progress = m.in_progress.set j Entry.wait ∧
      isGen (finished m j) = false ∧
      0 < genCountL m.in_progress ∧
      stoppedL m.in_progress = 0) := by
  obtain ⟨hlen, hdeps, hnpc, hjobs, hstop0⟩ := hInv
  have hjl : j < m.in_progress.length := hlen ▸ hj
  simp only [genCountL, stoppedL] at hdeps hnpc hstop0
  have hDA := resolveDeps_eq cfg m (finished m j)
  simp only [genCountL] at hDA
  have hFm0 : Fm cfg m
      = sumMap (qw cfg) m.msg_list + sumMap (fw cfg) m.in_progress + m.nproc := rfl
  have hfinle : genInd (finished m j) ≤ sumMap genInd m.in_progress :=
    getD_le_sumMap genInd hjl Entry.wait
  rcases masterStep_cases cfg m j with ⟨h, t, hl, hstep⟩ | ⟨hml, hA, hd, hstep⟩ |
      ⟨hml, hA, hd, hstep⟩
  · -- a job is dispatched: Fm strictly decreases
    left
    have hFm1 : Fm cfg (masterStep cfg m j).1
        = sumMap (qw cfg) t + sumMap (fw cfg) (m.in_progress.set j h) + m.nproc := by
      rw [hstep]; rfl
    have hq2 : sumMap (qw cfg) m.msg_list
        + sumMap (qw cfg) (resolveApp cfg m (finished m j))
        = qw cfg h + sumMap (qw cfg) t := by
      rw [← sumMap_append, hl, sumMap_cons]
    have hs : sumMap (fw cfg) (m.in_progress.set j h) + fw cfg (finished m j)
        = sumMap (fw cfg) m.in_progress + fw cfg h :=
      sumMap_set (fw cfg) (l := m.in_progress) (e := h) Entry.wait hjl
    have hqwh : qw cfg h = 1 + fw cfg h := rfl
    cases hfe : finished m j with
    | load_xyts =>
        rw [hfe] at hq2 hs
        have hsA := sumQ_resolveApp_lx cfg m
        have hfwv : fw cfg Entry.load_xyts = 1 + cfg.w0 * (2 + cfg.frames_sr) := rfl
        have hmul : m.nproc * (2 + cfg.frames_sr) ≤ cfg.w0 * (2 + cfg.frames_sr) :=
          Nat.mul_le_mul_right _ (by omega)
        omega
    | load_xyts_ts st ic =>
        rw [hfe] at hq2 hs
        have hsA := sumQ_resolveApp_lxts cfg m st ic
        have hfwv : fw cfg (Entry.load_xyts_ts st ic) = 1 + cfg.frames_sr := rfl
        omega
    | timeslice q =>
        rw [hfe] at hq2 hs
        have hAz : resolveApp cfg m (Entry.timeslice q) = [] := rfl
        rw [hAz] at hq2
        have hzz : sumMap (qw cfg) ([] : List Entry) = 0 := rfl
        have hfwv : fw cfg (Entry.timeslice q) = 0 := rfl
        omega
    | wait =>
        rw [hfe] at hq2 hs
        have hAz : resolveApp cfg m Entry.wait = [] := rfl
        rw [hAz] at hq2
        have hzz : sumMap (qw cfg) ([] : List Entry) = 0 := rfl
        have hfwv : fw cfg Entry.wait = 0 := rfl
        omega
    | stop => exact absurd hfe hlive
    | unknown tg =>
        rw [hfe] at hq2 hs
        have hAz : resolveApp cfg m (Entry.unknown tg) = [] := rfl
        rw [hAz] at hq2
        have hzz : sumMap (qw cfg) ([] : List Entry) = 0 := rfl
        have hfwv : fw cfg (Entry.unknown tg) = 0 := rfl
        omega
  · -- Stop emitted: Fm strictly decreases
    left
    have hFm1 : Fm cfg (masterStep cfg m j).1
        = sumMap (qw cfg) ([] : List Entry)
          + sumMap (fw cfg) (m.in_progress.set j Entry.stop) + (m.nproc - 1) := by
      rw [hstep]; rfl
    have hs : sumMap (fw cfg) (m.in_progress.set j Entry.stop) + fw cfg (finished m j)
        = sumMap (fw cfg) m.in_progress + fw cfg Entry.stop :=
      sumMap_set (fw cfg) (l := m.in_progress) (e := Entry.stop) Entry.wait hjl
    have hqz : sumMap (qw cfg) m.msg_list = 0 := by rw [hml]; rfl
    have hzz : sumMap (qw cfg) ([] : List Entry) = 0 := rfl
    have hfws : fw cfg Entry.stop = 0 := rfl
    omega
  · -- Wait emitted
    have hFm1 : Fm cfg (masterStep cfg m j).1
        = sumMap (qw cfg) ([] : List Entry)
          + sumMap (fw cfg) (m.in_progress.set j Entry.wait) + m.nproc := by
      rw [hstep]; rfl
    have hs : sumMap (fw cfg) (m.in_progress.set j Entry.wait) + fw cfg (finished m j)
        = sumMap (fw cfg) m.in_progress + fw cfg Entry.wait :=
      sumMap_set (fw cfg) (l := m.in_progress) (e := Entry.wait) Entry.wait hjl
    have hqz : sumMap (qw cfg) m.msg_list = 0 := by rw [hml]; rfl
    have hzz : sumMap (qw cfg) ([] : List Entry) = 0 := rfl
    have hfww : fw cfg Entry.wait = 0 := rfl
    by_cases hfw : fw cfg (finished m j) = 0
    · -- pure wait step: Fm unchanged, a generator is in flight elsewhere
      right
      have hngen : isGen (finished m j) = false := isGen_false_of_fw cfg hfw
      have hgfz : genInd (finished m j) = 0 := genInd_eq_zero hngen
      have hAg : sumMap genInd (resolveApp cfg m (finished m j)) = 0 := by
        rw [hA]; rfl
      have hqg : sumMap genInd m.msg_list = 0 := by rw [hml]; rfl
      have hgp : 0 < sumMap genInd m.in_progress := by
        rw [hDA, hAg] at hd
        omega
      have hsz : sumMap stopInd m.in_progress = 0 := by
        by_contra hc
        have hz := hstop0 (by omega)
        omega
      refine ⟨by omega, ?_, hngen, hgp, hsz⟩
      rw [hstep]
    · left
      omega

theorem sys_live_next (cfg : Cfg) (s : Sys) (hMI : MasterInv cfg s.m)
    (hnp : s.m.nproc ≠ 0) :
    0 < cfg.w0 ∧
    s.m.in_progress.getD (nextLive s.m.in_progress cfg.w0 s.ptr cfg.w0) Entry.wait
      ≠ Entry.stop ∧
    nextLive s.m.in_progress cfg.w0 s.ptr cfg.w0 < cfg.w0 := by
  obtain ⟨hlen, hdeps, hnpc, hjobs, hstop0⟩ := hMI
  simp only [stoppedL] at hnpc
  have hw0 : 0 < cfg.w0 := by omega
  have hslt : sumMap stopInd s.m.in_progress < s.m.in_progress.length := by
    rw [hlen]; omega
  obtain ⟨k, hk, hkz⟩ := exists_zero_of_sumMap_lt stopInd stopInd_le_one hslt Entry.wait
  have hkw : k < cfg.w0 := hlen ▸ hk
  obtain ⟨mm, hmm, hmme⟩ := exists_offset s.ptr hw0 hkw
  have hlive : s.m.in_progress.getD k Entry.wait ≠ Entry.stop := by
    intro hc; rw [hc] at hkz; simp [stopInd] at hkz
  have hnl := nextLive_spec s.m.in_progress cfg.w0 hw0 cfg.w0 s.ptr
    ⟨mm, hmm, by rw [hmme]; exact hlive⟩
  exact ⟨hw0, hnl.1, hnl.2⟩

theorem sysStep_slaves_length (cfg : Cfg) (s : Sys) :
    (sysStep cfg s).slaves.length = s.slaves.length := by
  simp [sysStep]

theorem sysInv_step (cfg : Cfg) (s : Sys) (hI : SysInv cfg s)
    (hnp : s.m.nproc ≠ 0) : SysInv cfg (sysStep cfg s) := by
  obtain ⟨hMI, hsl, hH⟩ := hI
  obtain ⟨hw0, hlive, hjw⟩ := sys_live_next cfg s hMI hnp
  refine ⟨?_, ?_, ?_⟩
  · exact masterInv_step cfg s.m _ hMI hjw hlive hnp
  · rw [sysStep_slaves_length]; exact hsl
  · exact histOK_step cfg s.m s.history _ hMI hH hjw hlive

theorem mu_step (cfg : Cfg) (s : Sys) (hI : SysInv cfg s)
    (hnp : s.m.nproc ≠ 0) : mu cfg (sysStep cfg s) < mu cfg s := by
  obtain ⟨hMI, hsl, hH⟩ := hI
  obtain ⟨hw0, hlive, hjw⟩ := sys_live_next cfg s hMI hnp
  have hlen : s.m.in_progress.length = cfg.w0 := hMI.1
  have hFmEq : Fm cfg (sysStep cfg s).m
      = Fm cfg (masterStep cfg s.m
          (nextLive s.m.in_progress cfg.w0 s.ptr cfg.w0)).1 := rfl
  have hDS : Dist cfg (sysStep cfg s) ≤ cfg.w0 := firstGen_le_fuel _ _ _ _
  rcases Fm_step cfg s.m _ hMI hjw hlive hnp with hlt |
      ⟨heq, hslots, hngen, hgp, hsz⟩
  · have hmul : (Fm cfg (masterStep cfg s.m
        (nextLive s.m.in_progress cfg.w0 s.ptr cfg.w0)).1 + 1) * (cfg.w0 + 1)
        ≤ Fm cfg s.m * (cfg.w0 + 1) :=
      Nat.mul_le_mul_right _ (by omega)
    have hexp : (Fm cfg (masterStep cfg s.m
        (nextLive s.m.in_progress cfg.w0 s.ptr cfg.w0)).1 + 1) * (cfg.w0 + 1)
        = Fm cfg (masterStep cfg s.m
            (nextLive s.m.in_progress cfg.w0 s.ptr cfg.w0)).1 * (cfg.w0 + 1)
          + (cfg.w0 + 1) := by ring
    simp only [mu]
    rw [hFmEq]
    omega
  · set jv := nextLive s.m.in_progress cfg.w0 s.ptr cfg.w0 with hjv
    have hszz : sumMap stopInd s.m.in_progress = 0 := hsz
    have hall_ptr : s.m.in_progress.getD (s.ptr % cfg.w0) Entry.wait
        ≠ Entry.stop := by
      intro hc
      have hptl : s.ptr % cfg.w0 < s.m.in_progress.length := by
        rw [hlen]; exact Nat.mod_lt _ hw0
      have hzz := sumMap_eq_zero_getD stopInd hszz hptl Entry.wait
      rw [hc] at hzz
      simp [stopInd] at hzz
    have hjeq : jv = s.ptr % cfg.w0 := by
      rw [hjv]; exact nextLive_of_live _ _ _ hw0 hall_ptr
    have hgpz : 0 < sumMap genInd s.m.in_progress := hgp
    obtain ⟨kg, hkg, hkgp⟩ := exists_of_sumMap_pos genInd Entry.wait hgpz
    have hkgw : kg < cfg.w0 := hlen ▸ hkg
    obtain ⟨mg, hmg, hmge⟩ := exists_offset s.ptr hw0 hkgw
    have hgenmg : isGen (s.m.in_progress.getD ((s.ptr + mg) % cfg.w0)
        Entry.wait) = true := by
      rw [hmge]; exact isGen_true_of_genInd_pos hkgp
    have hdle : firstGen s.m.in_progress cfg.w0 s.ptr cfg.w0 ≤ mg :=
      firstGen_le s.m.in_progress cfg.w0 cfg.w0 s.ptr mg hmg hgenmg
    have hdlt : firstGen s.m.in_progress cfg.w0 s.ptr cfg.w0 < cfg.w0 := by omega
    have hfound := firstGen_found s.m.in_progress cfg.w0 cfg.w0 s.ptr hdlt
    set d := firstGen s.m.in_progress cfg.w0 s.ptr cfg.w0 with hdd
    have hfin_nongen : isGen (s.m.in_progress.getD jv Entry.wait) = false := hngen
    have hd1 : 1 ≤ d := by
      by_contra hc
      have hd0 : d = 0 := by omega
      rw [hd0, Nat.add_zero] at hfound
      rw [← hjeq] at hfound
      rw [hfin_nongen] at hfound
      simp at hfound
    have hpne : (s.ptr + d) % cfg.w0 ≠ jv := by
      rw [hjeq]; exact add_mod_ne s.ptr hd1 hdlt
    have hns : (sysStep cfg s).m.in_progress
        = s.m.in_progress.set jv Entry.wait := hslots
    have hptr2 : (sysStep cfg s).ptr = jv + 1 := rfl
    have hgen2 : isGen ((s.m.in_progress.set jv Entry.wait).getD
        ((s.ptr + d) % cfg.w0) Entry.wait) = true := by
      rw [getD_set_ne Entry.wait Entry.wait (Ne.symm hpne)]
      exact hfound
    have hoff : ((jv + 1) + (d - 1)) % cfg.w0 = (s.ptr + d) % cfg.w0 := by
      rw [hjeq]
      have harith : s.ptr % cfg.w0 + 1 + (d - 1) = s.ptr % cfg.w0 + d := by omega
      rw [harith, mod_shift]
    have hD2 : Dist cfg (sysStep cfg s) ≤ d - 1 := by
      show firstGen (sysStep cfg s).m.in_progress cfg.w0
        (sysStep cfg s).ptr cfg.w0 ≤ d - 1
      rw [hns, hptr2]
      exact firstGen_le _ _ _ _ _ (by omega) (by rw [hoff]; exact hgen2)
    have hDist0 : Dist cfg s = d := by rw [hdd]; rfl
    simp only [mu]
    rw [hFmEq, heq, hDist0]
    omega

theorem Fm_of_nproc_pos (cfg : Cfg) (m : MState) (hnp : m.nproc ≠ 0) :
    0 < Fm cfg m := by
  simp only [Fm]; omega

theorem sysRun_halt (cfg : Cfg) (f : Nat) (s : Sys) (h : s.m.nproc = 0) :
    sysRun cfg f s = s := by
  cases f with
  | zero => rfl
  | succ n => simp [sysRun, h]

theorem sysRun_term (cfg : Cfg) :
    ∀ f s, SysInv cfg s → mu cfg s ≤ f → (sysRun cfg f s).m.nproc = 0 := by
  intro f
  induction f with
  | zero =>
      intro s hI hmu
      by_contra hc
      rw [sysRun] at hc
      have h1 : 0 < Fm cfg s.m := Fm_of_nproc_pos cfg s.m hc
      have h2 : 1 * 1 ≤ Fm cfg s.m * (cfg.w0 + 1) :=
        Nat.mul_le_mul (by omega) (by omega)
      simp only [mu] at hmu
      omega
  | succ n ih =>
      intro s hI hmu
      by_cases h0 : s.m.nproc = 0
      · simp [sysRun, h0]
      · have hstep := mu_step cfg s hI h0
        have hInv2 := sysInv_step cfg s hI h0
        simp only [sysRun, if_neg h0]
        exact ih (sysStep cfg s) hInv2 (by omega)

theorem sysInv_run (cfg : Cfg) :
    ∀ f s, SysInv cfg s → SysInv cfg (sysRun cfg f s) := by
  intro f
  induction f with
  | zero => intro s h; exact h
  | succ n ih =>
      intro s h
      by_cases h0 : s.m.nproc = 0
      · simpa [sysRun, h0] using h
      · simp only [sysRun, if_neg h0]
        exact ih _ (sysInv_step cfg s h h0)

theorem genCountL_initMsgList (a b : Bool) (n : Nat) :
    genCountL (initMsgList a b n) = if a && b then 1 else 0 := by
  have hmap : sumMap genInd ((List.range n).map
      (fun i => Entry.timeslice (some i))) = 0 := by
    have hmem : ∀ e ∈ (List.range n).map (fun i => Entry.timeslice (some i)),
        genInd e = 0 := by
      intro x hx
      simp only [List.mem_map] at hx
      obtain ⟨i, _, hix⟩ := hx
      simp [← hix, genInd, isGen]
    rw [sumMap_const_of_mem genInd 0 hmem]
    omega
  cases a with
  | false => simp [initMsgList, genCountL, sumMap_cons, sumMap_nil, genInd, isGen]
  | true =>
      cases b with
      | false =>
          simp only [initMsgList, if_true, if_false, Bool.true_and,
            List.nil_append, genCountL]
          simp [hmap]
      | true =>
          simp only [initMsgList, if_true, Bool.true_and, genCountL]
          rw [sumMap_append, hmap, sumMap_cons, sumMap_nil]
          simp [genInd, isGen]

theorem onlyJobs_initMsgList (a b : Bool) (n : Nat) :
    onlyJobs (initMsgList a b n) := by
  intro e he
  cases a with
  | false =>
      have hsing : e = Entry.timeslice none := by simpa [initMsgList] using he
      rw [hsing]; rfl
  | true =>
      simp only [initMsgList] at he
      have he2 : e ∈ (if b = true then [Entry.load_xyts] else []) ++
          (List.range n).map (fun i => Entry.timeslice (some i)) := by
        simpa using he
      rcases List.mem_append.mp he2 with h1 | h2
      · cases b with
        | false => simp at h1
        | true =>
            have hlx : e = Entry.load_xyts := by simpa using h1
            rw [hlx]; rfl
      · simp only [List.mem_map] at h2
        obtain ⟨i, _, hi⟩ := h2
        rw [← hi]; rfl

theorem stoppedL_replicate_wait (n : Nat) :
    stoppedL (List.replicate n Entry.wait) = 0 := by
  rw [stoppedL, sumMap_replicate]
  simp [stopInd]

theorem genCountL_replicate_wait (n : Nat) :
    genCountL (List.replicate n Entry.wait) = 0 := by
  rw [genCountL, sumMap_replicate]
  simp [genInd, isGen]

theorem mInitH_inv (cfg : Cfg) (p : MState × List (Nat × Entry))
    (h : MInitH cfg p) : MasterInv cfg p.1 ∧ HistOK cfg p.1 p.2 := by
  obtain ⟨⟨a, b, n, hml, hdeps⟩, hnp, hip, hh⟩ := h
  constructor
  · refine ⟨?_, ?_, ?_, ?_, ?_⟩
    · rw [hip, List.length_replicate]
    · rw [hdeps, hml, hip, genCountL_initMsgList, genCountL_replicate_wait,
        Nat.add_zero]
      by_cases hab : (a && b) = true <;> simp [initDeps, hab]
    · rw [hip, stoppedL_replicate_wait, hnp]
      omega
    · rw [hml]; exact onlyJobs_initMsgList a b n
    · rw [hip, stoppedL_replicate_wait]
      intro hpos
      omega
  · intro k hk
    rw [hh, hip, getD_replicate cfg.w0 k Entry.wait Entry.wait hk]
    simp [countStop]

theorem sysInit_inv (cfg : Cfg) (s : Sys) (h : SysInit cfg s) : SysInv cfg s := by
  obtain ⟨hm, hptr, hsl⟩ := h
  have hmi := mInitH_inv cfg (s.m, s.history) hm
  exact ⟨hmi.1, by rw [hsl, List.length_replicate], hmi.2⟩

theorem reachesH_inv (cfg : Cfg) (p q : MState × List (Nat × Entry))
    (hp : MasterInv cfg p.1 ∧ HistOK cfg p.1 p.2) (hr : ReachesH cfg p q) :
    MasterInv cfg q.1 ∧ HistOK cfg q.1 q.2 := by
  induction hr with
  | refl => exact hp
  | step q2 j hq hj hlive hnp ih =>
      exact ⟨masterInv_step cfg q2.1 j ih.1 hj hlive hnp,
        histOK_step cfg q2.1 q2.2 j ih.1 ih.2 hj hlive⟩

theorem eq_stop_of_stopInd {e : Entry} (h : stopInd e = 1) : e = Entry.stop := by
  cases e with
  | stop => rfl
  | load_xyts => simp [stopInd] at h
  | load_xyts_ts st ic => simp [stopInd] at h
  | timeslice q => simp [stopInd] at h
  | wait => simp [stopInd] at h
  | unknown t => simp [stopInd] at h

theorem all_stop_of_nproc_zero (cfg : Cfg) (m : MState) (hMI : MasterInv cfg m)
    (h0 : m.nproc = 0) :
    ∀ k, k < cfg.w0 → m.in_progress.getD k Entry.wait = Entry.stop := by
  obtain ⟨hlen, hd2, hnpc, hj2, hs2⟩ := hMI
  simp only [stoppedL] at hnpc
  intro k hk
  have hfull : sumMap stopInd m.in_progress = m.in_progress.length := by
    rw [hlen]; omega
  exact eq_stop_of_stopInd
    (all_of_sumMap_eq_length stopInd stopInd_le_one hfull (hlen ▸ hk) Entry.wait)

theorem getD_map_log (l : List SlaveState) (k : Nat) (hk : k < l.length) :
    (l.map (fun sl => sl.log)).getD k []
      = (l.getD k (⟨[], [], 0⟩ : SlaveState)).log := by
  induction l generalizing k with
  | nil => simp at hk
  | cons a t ih =>
      cases k with
      | zero => simp [List.getD]
      | succ k2 =>
          simp only [List.map, List.getD, List.get?]
          exact ih k2 (by simpa using hk)

theorem inReady_iff (W start nt x : Nat) (hW : 0 < W) (hstart : start < W) :
    inReady W start nt x = true ↔ (x % W = start ∧ x < nt) := by
  constructor
  · intro h
    simp only [inReady, Bool.and_eq_true, decide_eq_true_eq] at h
    obtain ⟨⟨hle, hlt⟩, hmod⟩ := h
    refine ⟨?_, hlt⟩
    have hdvd : W ∣ (x - start) := Nat.dvd_of_mod_eq_zero hmod
    obtain ⟨q, hq⟩ := hdvd
    have hx : x = start + W * q := by omega
    rw [hx, Nat.add_mul_mod_self_left]
    exact Nat.mod_eq_of_lt hstart
  · intro ⟨hmod, hlt⟩
    have hx : x = W * (x / W) + start := by
      conv_lhs => rw [← Nat.div_add_mod x W]
      rw [hmod]
    have hle : start ≤ x := by omega
    have hsub : x - start = W * (x / W) := by omega
    simp only [inReady, Bool.and_eq_true, decide_eq_true_eq]
    exact ⟨⟨hle, hlt⟩, by rw [hsub]; exact Nat.mul_mod_right W _⟩

/-- Claim C1: when the queue is empty after resolver processing, the
coordinator replies Wait if the dependency counter is positive, and
otherwise emits exactly one Stop and decrements the worker count; the
dispatch loop steps only while nproc is nonzero and, with sufficient
fuel, halts with nproc = 0, after which the gather collects one logbook
report per spawned worker. -/
theorem spec_C1 (cfg : Cfg) :
    (∀ (m : MState) (j : Nat),
      (resolve cfg m (finished m j)).msg_list = [] →
      ((0 < (resolve cfg m (finished m j)).msg_deps →
          (masterStep cfg m j).2 = Entry.wait ∧
          (masterStep cfg m j).1.nproc = m.nproc) ∧
       ((resolve cfg m (finished m j)).msg_deps = 0 →
          (masterStep cfg m j).2 = Entry.stop ∧
          (masterStep cfg m j).1.nproc = m.nproc - 1 ∧
          (masterStep cfg m j).1.msg_list = []))) ∧
    (∀ (f : Nat) (s : Sys), s.m.nproc = 0 → sysRun cfg f s = s) ∧
    (∀ s : Sys, SysInv cfg s →
      (sysRun cfg (mu cfg s) s).m.nproc = 0 ∧
      (gatherReports (sysRun cfg (mu cfg s) s)).length = cfg.w0 ∧
      (∀ k, k < cfg.w0 →
        (gatherReports (sysRun cfg (mu cfg s) s)).getD k []
          = ((sysRun cfg (mu cfg s) s).slaves.getD k
              (⟨[], [], 0⟩ : SlaveState)).log)) := by
  refine ⟨?_, ?_, ?_⟩
  · intro m j hE
    have hE2 : m.msg_list ++ resolveApp cfg m (finished m j) = [] := hE
    rcases masterStep_cases cfg m j with ⟨h, t, hl, hstep⟩ | ⟨hml, hA, hd, hstep⟩ |
        ⟨hml, hA, hd, hstep⟩
    · rw [hE2] at hl; simp at hl
    · constructor
      · intro hpos
        have hd2 : (0 : Int) < resolveDeps m (finished m j) := hpos
        exact absurd hd (by omega)
      · intro _
        rw [hstep]
        exact ⟨rfl, rfl, rfl⟩
    · constructor
      · intro _
        rw [hstep]
        exact ⟨rfl, rfl⟩
      · intro h0
        have h02 : resolveDeps m (finished m j) = 0 := h0
        exact absurd h02 hd
  · intro f s h
    exact sysRun_halt cfg f s h
  · intro s hInv
    have hfin := sysInv_run cfg (mu cfg s) s hInv
    refine ⟨sysRun_term cfg (mu cfg s) s hInv (Nat.le_refl _), ?_, ?_⟩
    · show ((sysRun cfg (mu cfg s) s).slaves.map (fun sl => sl.log)).length = cfg.w0
      rw [List.length_map]
      exact hfin.2.1
    · intro k hk
      show ((sysRun cfg (mu cfg s) s).slaves.map (fun sl => sl.log)).getD k []
        = ((sysRun cfg (mu cfg s) s).slaves.getD k (⟨[], [], 0⟩ : SlaveState)).log
      exact getD_map_log _ k (by rw [hfin.2.1]; exact hk)

/-- Witness for C1 at concrete inputs: a one-slave master with empty queue
and zero dependencies replies Stop, zeroes nproc and leaves the queue
empty; a halted system is a fixed point of the loop; and the closed run
from a fresh one-slave system terminates and gathers one report. -/
theorem spec_C1_witness :
    ((masterStep cfgA mA 0).2 = Entry.stop ∧
      (masterStep cfgA mA 0).1.nproc = mA.nproc - 1 ∧
      (masterStep cfgA mA 0).1.msg_list = []) ∧
    sysRun cfgA 5 sHalted = sHalted ∧
    ((sysRun cfgA (mu cfgA sA) sA).m.nproc = 0 ∧
      (gatherReports (sysRun cfgA (mu cfgA sA) sA)).length = cfgA.w0) := by
  have h := spec_C1 cfgA
  refine ⟨(h.1 mA 0 (by decide)).2 (by decide), h.2.1 5 sHalted rfl, ?_⟩
  have h3 := h.2.2 sA (by decide)
  exact ⟨h3.1, h3.2.1⟩

/-- Claim C2: observing completion of the load_xyts prep job appends
exactly W load_xyts_ts jobs with partition keys start = 0, ..., W-1 and
stride W, and changes the dependency counter by plus W minus one; the
partition keys are pairwise distinct and the residue classes they select
are pairwise disjoint. -/
theorem spec_C2 (cfg : Cfg) (m : MState) (W : Nat) (hW : m.nproc = W) :
    (resolve cfg m Entry.load_xyts).msg_list
      = m.msg_list ++ (List.range W).map (fun i => Entry.load_xyts_ts i W) ∧
    (resolve cfg m Entry.load_xyts).msg_deps = m.msg_deps - 1 + W ∧
    ((List.range W).map (fun i => Entry.load_xyts_ts i W)).length = W ∧
    (List.range W).Nodup ∧
    (∀ i1 i2 x : Nat, i1 < W → i2 < W → i1 ≠ i2 →
      ¬(x % W = i1 ∧ x % W = i2)) := by
  subst hW
  refine ⟨rfl, rfl, by simp, List.nodup_range _, ?_⟩
  exact fun i1 i2 x h1 h2 hne hboth => hne (by omega)

/-- Witness for C2: with two workers and five outstanding dependencies,
load_xyts completion enqueues shard jobs with keys 0 and 1 at stride 2
and the counter becomes six. -/
theorem spec_C2_witness :
    (resolve cfgB mB Entry.load_xyts).msg_list
      = [Entry.load_xyts_ts 0 2, Entry.load_xyts_ts 1 2] ∧
    (resolve cfgB mB Entry.load_xyts).msg_deps = 6 := by
  have h := spec_C2 cfgB mB 2 rfl
  refine ⟨?_, ?_⟩
  · rw [h.1]; decide
  · rw [h.2.1]; decide

/-- Claim C3: observing completion of a load_xyts_ts job with key start
decrements the dependency counter by exactly one and never increments
it, and enqueues a timeslice job exactly for the frame indices within
the dynamic range whose derived timeslice index x satisfies x mod W =
start and x below the timeslice count; with no matching index the queue
is unchanged while the counter still drops by one. -/
theorem spec_C3 (cfg : Cfg) (m : MState) (start inc W : Nat)
    (hW : m.nproc = W) (hW0 : 0 < W) (hstart : start < W) :
    (resolve cfg m (Entry.load_xyts_ts start inc)).msg_deps = m.msg_deps - 1 ∧
    (resolve cfg m (Entry.load_xyts_ts start inc)).msg_list
      = m.msg_list ++ ((List.range cfg.frames_sr).filter
          (fun i => decide (cfg.xpos i % W = start ∧ cfg.xpos i < cfg.nt))).map
          (fun i => Entry.timeslice (some (cfg.frames + i))) ∧
    ((∀ i, i < cfg.frames_sr → ¬(cfg.xpos i % W = start ∧ cfg.xpos i < cfg.nt)) →
      (resolve cfg m (Entry.load_xyts_ts start inc)).msg_list = m.msg_list) := by
  subst hW
  have hpt : ∀ i, inReady m.nproc start cfg.nt (cfg.xpos i)
      = decide (cfg.xpos i % m.nproc = start ∧ cfg.xpos i < cfg.nt) := by
    intro i
    have hiff := inReady_iff m.nproc start cfg.nt (cfg.xpos i) hW0 hstart
    by_cases hp : cfg.xpos i % m.nproc = start ∧ cfg.xpos i < cfg.nt
    · rw [hiff.mpr hp, decide_eq_true hp]
    · have hne : inReady m.nproc start cfg.nt (cfg.xpos i) = false := by
        rw [← Bool.not_eq_true]
        exact fun hc => hp (hiff.mp hc)
      rw [hne, decide_eq_false hp]
  have hfilter : (List.range cfg.frames_sr).filter
      (fun i => inReady m.nproc start cfg.nt (cfg.xpos i))
      = (List.range cfg.frames_sr).filter
        (fun i => decide (cfg.xpos i % m.nproc = start ∧ cfg.xpos i < cfg.nt)) :=
    List.filter_congr (fun i _ => hpt i)
  have happ : resolveApp cfg m (Entry.load_xyts_ts start inc)
      = ((List.range cfg.frames_sr).filter
          (fun i => inReady m.nproc start cfg.nt (cfg.xpos i))).map
          (fun i => Entry.timeslice (some (cfg.frames + i))) := rfl
  refine ⟨rfl, ?_, ?_⟩
  · show m.msg_list ++ resolveApp cfg m (Entry.load_xyts_ts start inc) = _
    rw [happ, hfilter]
  · intro hnone
    show m.msg_list ++ resolveApp cfg m (Entry.load_xyts_ts start inc) = m.msg_list
    have hnil : (List.range cfg.frames_sr).filter
        (fun i => inReady m.nproc start cfg.nt (cfg.xpos i)) = [] := by
      rw [hfilter]
      refine List.filter_eq_nil_iff.mpr ?_
      intro i hi
      simp only [decide_eq_true_eq]
      exact hnone i (List.mem_range.mp hi)
    rw [happ, hnil]
    simp

/-- Witness for C3: two workers, three dynamic frames, two timeslices,
identity frame map, key start = 1: only frame 1 matches, one render job
with seq 11 is enqueued and the counter drops from five to four. -/
theorem spec_C3_witness :
    (resolve cfgC mB (Entry.load_xyts_ts 1 2)).msg_deps = 4 ∧
    (resolve cfgC mB (Entry.load_xyts_ts 1 2)).msg_list
      = [Entry.timeslice (some 11)] := by
  have h := spec_C3 cfgC mB 1 2 2 rfl (by decide) (by decide)
  refine ⟨?_, ?_⟩
  · rw [h.1]; decide
  · rw [h.2.1]; decide

/-- Claim C4: along every admissible schedule from a source initial
state, msg_deps always equals the number of generator jobs enqueued or
in flight, hence is never negative, and is zero exactly when no
generator job is enqueued or in flight. -/
theorem spec_C4 (cfg : Cfg) (p q : MState × List (Nat × Entry))
    (hinit : MInitH cfg p) (hreach : ReachesH cfg p q) :
    q.1.msg_deps
      = ((genCountL q.1.msg_list + genCountL q.1.in_progress : Nat) : Int) ∧
    0 ≤ q.1.msg_deps ∧
    (q.1.msg_deps = 0 ↔
      genCountL q.1.msg_list = 0 ∧ genCountL q.1.in_progress = 0) := by
  have hinv := reachesH_inv cfg p q (mInitH_inv cfg p hinit) hreach
  have hdeps := hinv.1.2.1
  exact ⟨hdeps, by omega, by omega⟩

/-- Witness for C4 at the animated-with-xyts initial state for two
workers: the counter is nonnegative and nonzero (the prep job is
outstanding). -/
theorem spec_C4_witness :
    0 ≤ (m4, ([] : List (Nat × Entry))).1.msg_deps ∧
    ¬((m4, ([] : List (Nat × Entry))).1.msg_deps = 0) := by
  have h := spec_C4 cfgB (m4, []) (m4, [])
    ⟨⟨true, true, 2, rfl, rfl⟩, rfl, rfl, rfl⟩ (ReachesH.refl _)
  refine ⟨h.2.1, fun hc => ?_⟩
  have h3 := h.2.2.mp hc
  exact absurd h3 (by decide)

/-- Claim C5: along every admissible schedule each worker is sent at most
one Stop, and in a state where the loop has terminated every worker has
been sent exactly one; moreover, in the deterministic round-robin closed
system every run from a source initial state reaches termination with
every worker having received exactly one Stop. -/
theorem spec_C5 (cfg : Cfg) :
    (∀ p q, MInitH cfg p → ReachesH cfg p q →
      (∀ k, k < cfg.w0 → countStop k q.2 ≤ 1) ∧
      (q.1.nproc = 0 → ∀ k, k < cfg.w0 → countStop k q.2 = 1)) ∧
    (∀ s : Sys, SysInit cfg s →
      ∃ f, (sysRun cfg f s).m.nproc = 0 ∧
        ∀ k, k < cfg.w0 → countStop k (sysRun cfg f s).history = 1) := by
  constructor
  · intro p q hinit hreach
    have hinv := reachesH_inv cfg p q (mInitH_inv cfg p hinit) hreach
    have hH := hinv.2
    constructor
    · intro k hk
      have hHk := hH k hk
      by_cases hs : q.1.in_progress.getD k Entry.wait = Entry.stop
      · rw [if_pos hs] at hHk; omega
      · rw [if_neg hs] at hHk; omega
    · intro h0 k hk
      have hstopk := all_stop_of_nproc_zero cfg q.1 hinv.1 h0 k hk
      have hHk := hH k hk
      rw [if_pos hstopk] at hHk
      exact hHk
  · intro s hinit
    have hInv := sysInit_inv cfg s hinit
    refine ⟨mu cfg s, sysRun_term cfg (mu cfg s) s hInv (Nat.le_refl _), ?_⟩
    intro k hk
    have hIf := sysInv_run cfg (mu cfg s) s hInv
    have h0 := sysRun_term cfg (mu cfg s) s hInv (Nat.le_refl _)
    have hstopk := all_stop_of_nproc_zero cfg (sysRun cfg (mu cfg s) s).m
      hIf.1 h0 k hk
    have hHk := hIf.2.2 k hk
    rw [if_pos hstopk] at hHk
    exact hHk

/-- Witness for C5: the closed one-slave run from the non-animated
initial state terminates with that slave having received exactly one
Stop. -/
theorem spec_C5_witness :
    ∃ f, (sysRun cfgA f s5).m.nproc = 0 ∧
      ∀ k, k < cfgA.w0 → countStop k (sysRun cfgA f s5).history = 1 :=
  (spec_C5 cfgA).2 s5 ⟨⟨⟨false, false, 0, rfl, rfl⟩, rfl, rfl, rfl⟩, rfl, rfl⟩

/-- Counterexample to C6 as stated: dispatching the Stop sentinel does
record it in the requesting worker's slot (line 506 assigns in_progress
unconditionally), contradicting the clause that Stop is not recorded. -/
theorem spec_C6_cex :
    (masterStep cfgA mA 0).2 = Entry.stop ∧
    (masterStep cfgA mA 0).1.in_progress.getD 0 Entry.wait = Entry.stop := by
  decide

/-- Claim C6 as amended: on every iteration the dequeued entry is sent as
the reply and recorded in the requesting worker's slot in the same
iteration (the assignment follows the send), with no exception for Stop
or Wait; a stopped worker never requests again, so its recorded Stop is
never read back. -/
theorem spec_C6 (cfg : Cfg) (m : MState) (j : Nat)
    (hj : j < m.in_progress.length) :
    (masterStep cfg m j).1.in_progress.getD j Entry.wait
      = (masterStep cfg m j).2 :=
  masterStep_records cfg m j hj

/-- Witness for C6: a one-slave master dispatching a render job records
that job in the slot. -/
theorem spec_C6_witness :
    (masterStep cfgA ⟨[Entry.timeslice none], 0, 1, [Entry.wait]⟩
        0).1.in_progress.getD 0 Entry.wait
      = (masterStep cfgA ⟨[Entry.timeslice none], 0, 1, [Entry.wait]⟩ 0).2 :=
  spec_C6 cfgA ⟨[Entry.timeslice none], 0, 1, [Entry.wait]⟩ 0 (by decide)

/-- Counterexample to C7 as stated: the record a worker logs for a
timeslice execution is the 3-tuple built at line 574, carrying the job
payload besides kind and duration, so the log is not a sequence of
(kind, duration) pairs. -/
theorem spec_C7_cex :
    slaveStep (Entry.timeslice (some 5)) ⟨[], [], 0⟩
      = some ⟨[LogEntry.timesliceRec (some 5) 0], [Entry.timeslice (some 5)], 0⟩ ∧
    logTupleLen (LogEntry.timesliceRec (some 5) 0) = 3 ∧
    ¬ logTupleLen (LogEntry.timesliceRec (some 5) 0) = 2 := by
  decide

/-- Claim C7 as amended: a worker's only cross-iteration state is its
logbook, whose entries are ('sleep', duration) pairs for Wait replies
and ('timeslice', job, duration) triples for render executions, while
the two prep handlers log nothing; at the final handshake the
coordinator gathers exactly one logbook per spawned worker, each equal
to that worker's logbook. -/
theorem spec_C7 (cfg : Cfg) :
    (∀ st : SlaveState, slaveStep Entry.wait st
        = some { st with log := st.log ++ [LogEntry.sleepRec 0] }) ∧
    (∀ (st : SlaveState) (q : Option Nat), slaveStep (Entry.timeslice q) st
        = some { st with executed := st.executed ++ [Entry.timeslice q]
                         log := st.log ++ [LogEntry.timesliceRec q 0] }) ∧
    (∀ st : SlaveState, slaveStep Entry.load_xyts st
        = some { st with executed := st.executed ++ [Entry.load_xyts] }) ∧
    (∀ (st : SlaveState) (s2 i2 : Nat), slaveStep (Entry.load_xyts_ts s2 i2) st
        = some { st with executed := st.executed ++ [Entry.load_xyts_ts s2 i2] }) ∧
    (∀ le : LogEntry, logTupleLen le = 2 ∨ logTupleLen le = 3) ∧
    (∀ s : Sys, SysInv cfg s →
      (gatherReports s).length = cfg.w0 ∧
      ∀ k, k < cfg.w0 → (gatherReports s).getD k []
        = (s.slaves.getD k (⟨[], [], 0⟩ : SlaveState)).log) := by
  refine ⟨fun st => rfl, fun st q => rfl, fun st => rfl, fun st s2 i2 => rfl,
    ?_, ?_⟩
  · intro le
    cases le with
    | sleepRec d => exact Or.inl rfl
    | timesliceRec q d => exact Or.inr rfl
  · intro s hInv
    refine ⟨?_, ?_⟩
    · show (s.slaves.map (fun sl => sl.log)).length = cfg.w0
      rw [List.length_map]
      exact hInv.2.1
    · intro k hk
      show (s.slaves.map (fun sl => sl.log)).getD k []
        = (s.slaves.getD k (⟨[], [], 0⟩ : SlaveState)).log
      exact getD_map_log _ k (by rw [hInv.2.1]; exact hk)

/-- Witness for C7: the gather over a one-slave system returns exactly
that slave's logbook. -/
theorem spec_C7_witness :
    (gatherReports s7).length = 1 ∧
    (gatherReports s7).getD 0 [] = [LogEntry.sleepRec 0] := by
  have h := (spec_C7 cfgA).2.2.2.2.2 s7 (by decide)
  exact ⟨h.1, by rw [h.2 0 (by decide)]; rfl⟩

/-- Claim C8: a worker receiving a reply whose tag is none of the
recognized variants prints the defensive message (line 576) and
continues its loop: it executes no handler, appends nothing to its
logbook, and does not terminate. -/
theorem spec_C8 (tg : Nat) (st : SlaveState) :
    slaveStep (Entry.unknown tg) st
      = some { st with printed := st.printed + 1 } ∧
    (∀ st2, slaveStep (Entry.unknown tg) st = some st2 →
      st2.log = st.log ∧ st2.executed = st.executed ∧
      st2.printed = st.printed + 1) := by
  refine ⟨rfl, ?_⟩
  intro st2 h
  have h2 : some { st with printed := st.printed + 1 } = some st2 := h
  injection h2 with h3
  subst h3
  exact ⟨rfl, rfl, rfl⟩

/-- Witness for C8: a fresh worker getting an unknown reply with tag 7
continues with an untouched logbook and execution trace and one printed
message. -/
theorem spec_C8_witness :
    slaveStep (Entry.unknown 7) (⟨[], [], 0⟩ : SlaveState)
      = some (⟨[], [], 1⟩ : SlaveState) ∧
    (((⟨[], [], 1⟩ : SlaveState).log = ([] : List LogEntry)) ∧
      ((⟨[], [], 1⟩ : SlaveState).executed = ([] : List Entry)) ∧
      (⟨[], [], 1⟩ : SlaveState).printed = 0 + 1) :=
  ⟨(spec_C8 7 ⟨[], [], 0⟩).1,
    (spec_C8 7 ⟨[], [], 0⟩).2 ⟨[], [], 1⟩ rfl⟩

/-- Claim C9, Scenario A: three workers, ten pre-enqueued render jobs,
dependency counter zero.  The closed round-robin run dispatches all ten
jobs in FIFO order across the three workers, drains the queue, then
sends each worker exactly one Stop; the thirteen replies contain no
Wait. -/
theorem spec_C9 :
    (sysRun cfg9 20 s9).m.nproc = 0 ∧
    (sysRun cfg9 20 s9).history
      = [(0, Entry.timeslice (some 0)), (1, Entry.timeslice (some 1)),
         (2, Entry.timeslice (some 2)), (0, Entry.timeslice (some 3)),
         (1, Entry.timeslice (some 4)), (2, Entry.timeslice (some 5)),
         (0, Entry.timeslice (some 6)), (1, Entry.timeslice (some 7)),
         (2, Entry.timeslice (some 8)), (0, Entry.timeslice (some 9)),
         (1, Entry.stop), (2, Entry.stop), (0, Entry.stop)] ∧
    ((sysRun cfg9 20 s9).history.filter
        (fun pr => decide (pr.2 ≠ Entry.wait))).length = 13 ∧
    ((sysRun cfg9 20 s9).history.map Prod.snd).filter isJob
      = (List.range 10).map (fun i => Entry.timeslice (some i)) ∧
    countStop 0 (sysRun cfg9 20 s9).history = 1 ∧
    countStop 1 (sysRun cfg9 20 s9).history = 1 ∧
    countStop 2 (sysRun cfg9 20 s9).history = 1 := by
  decide

/-- Claim C10: between iterations the queue holds only real job entries;
one further step keeps it so, and whenever the reply is a sentinel (Wait
or Stop) the queue was empty after resolution, so the sentinel was
created in the same iteration that delivers it to the requesting
worker. -/
theorem spec_C10 (cfg : Cfg) (p q : MState × List (Nat × Entry))
    (hinit : MInitH cfg p) (hreach : ReachesH cfg p q) :
    onlyJobs q.1.msg_list ∧
    (∀ j, j < cfg.w0 → q.1.in_progress.getD j Entry.wait ≠ Entry.stop →
      q.1.nproc ≠ 0 →
      (onlyJobs (masterStep cfg q.1 j).1.msg_list ∧
       (((masterStep cfg q.1 j).2 = Entry.wait ∨
         (masterStep cfg q.1 j).2 = Entry.stop) →
         (resolve cfg q.1 (finished q.1 j)).msg_list = []))) := by
  have hinv := reachesH_inv cfg p q (mInitH_inv cfg p hinit) hreach
  have hjobs := hinv.1.2.2.2.1
  refine ⟨hjobs, ?_⟩
  intro j hj hlive hnp
  constructor
  · exact (masterInv_step cfg q.1 j hinv.1 hj hlive hnp).2.2.2.1
  · intro hsent
    rcases masterStep_cases cfg q.1 j with ⟨h, t, hl, hstep⟩ | ⟨hml, hA, hd, hstep⟩ |
        ⟨hml, hA, hd, hstep⟩
    · exfalso
      have hjob : isJob h = true :=
        (onlyJobs_append hjobs (onlyJobs_resolveApp cfg q.1 _)) h
          (by rw [hl]; exact List.mem_cons_self h t)
      have hr : (masterStep cfg q.1 j).2 = h := by rw [hstep]
      rcases hsent with hw | hs2
      · rw [hr] at hw; rw [hw] at hjob; simp [isJob] at hjob
      · rw [hr] at hs2; rw [hs2] at hjob; simp [isJob] at hjob
    · show q.1.msg_list ++ resolveApp cfg q.1 (finished q.1 j) = []
      rw [hml, hA]; rfl
    · show q.1.msg_list ++ resolveApp cfg q.1 (finished q.1 j) = []
      rw [hml, hA]; rfl

/-- Witness for C10 at the animated no-xyts initial state for one
worker: the queue holds only job entries. -/
theorem spec_C10_witness :
    onlyJobs (m10, ([] : List (Nat × Entry))).1.msg_list :=
  (spec_C10 cfgA (m10, []) (m10, [])
    ⟨⟨true, false, 2, rfl, rfl⟩, rfl, rfl, rfl⟩ (ReachesH.refl _)).1

end SrfSched
